import Mathlib

/-!
Verification development for the pgm-rust graph library.

This file gives a shallow embedding of the data model (Node, Edge, Graph),
the membership / neighborhood / subgraph operations, and the depth-first
forest engine of the repository, and settles the claimed properties of
its specification.  Rust HashSet and HashMap values are modelled by lists:
a HashSet is a list deduplicated through the same (hash, eq) discipline the
Rust standard library uses (an insert is a no-op exactly when an element
with the same hash tokens that also compares equal is already present),
and a HashMap is an association list in which a later binding shadows an
earlier one, observed only through lookup.
-/

namespace PgmRust

/-- Value of usize::MAX, the sentinel the engine stores in the visit-time
maps for vertices that were never visited. -/
def USIZE_MAX : Nat := 2 ^ 64 - 1

/-- Edge type tag, from src/graph/types/edgetype.rs. -/
inductive EdgeKind where
  | Directed : EdgeKind
  | Undirected : EdgeKind
deriving DecidableEq, Repr

/-- Node, from src/graph/types/node.rs: an identifier and a data payload.
The Rust PartialEq and Hash implementations for Node both use the
identifier only. -/
structure Node where
  _id : String
  _data : List (String × List String)
deriving DecidableEq, Repr

/-- EdgeInfo, from src/graph/types/edge.rs: identifier, payload, type tag.
Its PartialEq compares the identifier only. -/
structure EdgeInfo where
  id : String
  data : List (String × List String)
  edge_type : EdgeKind
deriving DecidableEq, Repr

/-- Edge, from src/graph/types/edge.rs: an EdgeInfo plus two endpoints. -/
structure Edge where
  info : EdgeInfo
  start_node : Node
  end_node : Node
deriving DecidableEq, Repr

/-- Rust PartialEq for Node: identifier only (default_partial_eq_impl in
src/graph/traits/generic.rs). -/
def nodeEqRust (a b : Node) : Bool := a._id == b._id

/-- Rust Hash for Node (default_hash_id_impl): the tokens fed to the
hasher, namely the identifier alone.  Two values feed the hasher the same
tokens exactly when their Rust hashes agree. -/
def nodeHashTokens (n : Node) : List String := [n._id]

/-- Rust PartialEq for Edge (src/graph/types/edge.rs lines 192-199):
delegates to EdgeInfo equality, which compares the identifier only. -/
def edgeEqRust (a b : Edge) : Bool := a.info.id == b.info.id

/-- Rust Hash for Edge (src/graph/types/edge.rs lines 184-190): the hasher
is fed the identifier of the edge followed by the hash tokens of the start
node and of the end node. -/
def edgeHashTokens (e : Edge) : List String :=
  e.info.id :: (nodeHashTokens e.start_node ++ nodeHashTokens e.end_node)

/-- Model of HashSet::insert: the element is dropped exactly when the set
already holds an element with the same hash tokens that also compares
equal; otherwise it is appended.  This is the lookup discipline of the
Rust standard library: equality is only consulted inside the bucket
selected by the hash. -/
def hsInsert (hash : α → List String) (eq : α → α → Bool)
    (s : List α) (x : α) : List α :=
  if s.any (fun y => hash y == hash x && eq y x) then s else s ++ [x]

/-- Insertion into a HashSet of nodes (hash and equality agree: both by
identifier). -/
def insertNodeSet (s : List Node) (n : Node) : List Node :=
  hsInsert nodeHashTokens nodeEqRust s n

/-- Insertion into a HashSet of edges (hash by identifier and endpoints,
equality by identifier only). -/
def insertEdgeSet (s : List Edge) (e : Edge) : List Edge :=
  hsInsert edgeHashTokens edgeEqRust s e

/-- Insertion into a HashSet of strings. -/
def insertStrSet (s : List String) (x : String) : List String :=
  if s.any (fun y => y == x) then s else s ++ [x]

/-- A node with the given identifier is a member of the list, in the sense
of Rust Node equality (identifier only). -/
def idMemN (s : List Node) (x : String) : Prop := ∃ m ∈ s, m._id = x

/-- An edge with the given identifier is a member of the list, in the
sense of Rust Edge equality (identifier only). -/
def idMemE (s : List Edge) (x : String) : Prop := ∃ m ∈ s, m.info.id = x

instance (s : List Node) (x : String) : Decidable (idMemN s x) := by
  unfold idMemN
  exact List.decidableBEx _ s

instance (s : List Edge) (x : String) : Decidable (idMemE s x) := by
  unfold idMemE
  exact List.decidableBEx _ s

/-- node_ids from src/graph/ops/edge/miscops.rs: the set of the two
endpoint identifiers. -/
def node_ids (e : Edge) : List String :=
  insertStrSet (insertStrSet [] e.start_node._id) e.end_node._id

/-- is_endvertice from src/graph/ops/edge/boolops.rs: the node identifier
occurs among the endpoint identifiers. -/
def is_endvertice (e : Edge) (n : Node) : Bool :=
  (node_ids e).contains n._id

/-- get_other from src/graph/ops/edge/nodeops.rs: the opposite endpoint
when the node identifier matches an endpoint, none otherwise. -/
def get_other (e : Edge) (n : Node) : Option Node :=
  if e.start_node._id == n._id then some e.end_node
  else if e.end_node._id == n._id then some e.start_node
  else none

/-- Graph, from src/graph/types/graph.rs: identifier, payload, and the
gdata pair of a stored isolated-node set and an edge set. -/
structure Graph where
  graph_id : String
  graph_data : List (String × List String)
  nodes : List Node
  edges : List Edge
deriving DecidableEq, Repr

/-- Endpoint collection pass of get_vertices and of vertices() in
src/graph/types/graph.rs: insert the start and end node of every edge
into a node HashSet. -/
def endpointNodes (edges : List Edge) : List Node :=
  edges.foldl (fun acc e => insertNodeSet (insertNodeSet acc e.start_node) e.end_node) []

/-- get_vertices from src/graph/types/graph.rs lines 102-118: keep only
the supplied nodes that are not equal (by identifier) to any edge
endpoint; the edge set passes through unchanged. -/
def get_vertices (nodes : List Node) (edges : List Edge) : List Edge × List Node :=
  let nset := endpointNodes edges
  let mset := nodes.foldl
    (fun acc n => if nset.any (fun m => nodeEqRust m n) then acc else insertNodeSet acc n) []
  (edges, mset)

/-- Graph::new from src/graph/types/graph.rs lines 142-154. -/
def Graph.new (graph_id : String) (graph_data : List (String × List String))
    (nodes : List Node) (edges : List Edge) : Graph :=
  let p := get_vertices nodes edges
  { graph_id := graph_id, graph_data := graph_data, nodes := p.snd, edges := p.fst }

/-- Graph::empty from src/graph/types/graph.rs. -/
def Graph.emptyG (graph_id : String) : Graph :=
  { graph_id := graph_id, graph_data := [], nodes := [], edges := [] }

/-- Graph::from_edgeset from src/graph/types/graph.rs lines 196-203: the
node set is left empty.  The Uuid v4 identifier the source draws is
modelled as an explicit parameter, since it never influences the vertex
or edge data. -/
def Graph.from_edgeset (uuid : String) (edges : List Edge) : Graph :=
  { graph_id := uuid, graph_data := [], nodes := [], edges := edges }

/-- Graph::from_edge_node_set from src/graph/types/graph.rs lines
204-212, with the Uuid modelled as a parameter. -/
def Graph.from_edge_node_set (uuid : String) (edges : List Edge) (nodes : List Node) : Graph :=
  let p := get_vertices nodes edges
  { graph_id := uuid, graph_data := [], nodes := p.snd, edges := p.fst }

/-- Graph::based_on_node_set from src/graph/types/graph.rs lines 222-240:
edges are first filtered to those whose both endpoints are contained (by
node equality, hence by identifier) in the supplied node set. -/
def Graph.based_on_node_set (uuid : String) (edges : List Edge) (nodes : List Node) : Graph :=
  let medges := edges.foldl
    (fun acc e =>
      if nodes.any (fun m => nodeEqRust m e.start_node)
          && nodes.any (fun m => nodeEqRust m e.end_node)
      then insertEdgeSet acc e else acc) []
  let p := get_vertices nodes medges
  { graph_id := uuid, graph_data := [], nodes := p.snd, edges := p.fst }

/-- vertices() from src/graph/types/graph.rs lines 64-75: all edge
endpoints, then the stored isolated nodes, collected into a node set. -/
def verticesList (g : Graph) : List Node :=
  g.nodes.foldl insertNodeSet (endpointNodes g.edges)

/-- Condition tested by is_in on each edge, in the order of the source
(src/graph/ops/graph/boolops.rs lines 24-38): edge identifier, then start
identifier, then end identifier. -/
def edgeHit (e : Edge) (eid : String) : Bool :=
  e.info.id == eid || e.start_node._id == eid || e.end_node._id == eid

/-- Vertices that survive the vertices().difference(endpoints) step of
is_in: the stored vertices minus every edge endpoint. -/
def remainingVertices (g : Graph) : List Node :=
  (verticesList g).filter (fun n => !((endpointNodes g.edges).any (fun m => nodeEqRust m n)))

/-- is_in from src/graph/ops/graph/boolops.rs lines 17-45, applied to the
identifier of the queried graph object.  The source walks the edge set
with early return (edge id, start id, end id), then walks the difference
of the vertex set and the collected endpoint set; when no edge matched,
the endpoint set holds exactly all endpoints, so the two formulations
agree. -/
def is_in_id (g : Graph) (eid : String) : Bool :=
  if g.edges.any (fun e => edgeHit e eid) then true
  else (remainingVertices g).any (fun n => n._id == eid)

/-- Error taxonomy. Modelled from the spec: section 7 names the typed
errors VertexNotFound, EdgeNotFound, NotInGraph, MalformedPath and
EmptyInput; the source defines no error type at all. -/
inductive GraphError where
  | NotInGraph : GraphError
  | VertexNotFound : GraphError
  | EdgeNotFound : GraphError
  | MalformedPath : GraphError
  | EmptyInput : GraphError
deriving DecidableEq, Repr

/-- Possible outcomes of a Rust call: a value, a typed recoverable error,
or a process-fatal panic.  The source operations below only ever produce
ok or panicked. -/
inductive Outcome (α : Type) where
  | ok : α → Outcome α
  | err : GraphError → Outcome α
  | panicked : String → Outcome α
deriving DecidableEq, Repr

/-- neighbors_of from src/graph/ops/graph/nodeops.rs lines 76-95: panics
when the node is not in the graph, otherwise collects the opposite
endpoint of every incident edge.  The panic message formatting of the
source (Display of the node and graph) is elided to a fixed string.  The
source inserts the raw get_other result; the collection step is modelled
per the spec sentence (add the opposite endpoint when present), which
agrees on every incident edge. -/
def neighbors_of (g : Graph) (n : Node) : Outcome (List Node) :=
  if !(is_in_id g n._id) then Outcome.panicked "node not in graph"
  else Outcome.ok (g.edges.foldl
    (fun acc e =>
      if is_endvertice e n then
        match get_other e n with
        | some m => insertNodeSet acc m
        | none => acc
      else acc) [])

/-- is_node_incident from src/graph/ops/graph/boolops.rs lines 134-147:
panics when the edge or the node is not in the graph, otherwise answers
is_endvertice. -/
def is_node_incident (g : Graph) (e : Edge) (n : Node) : Outcome Bool :=
  if !(is_in_id g e.info.id) then Outcome.panicked "edge not in graph"
  else if !(is_in_id g n._id) then Outcome.panicked "node not in graph"
  else Outcome.ok (is_endvertice e n)

/-- Default edge policy of get_subgraph_by_vertices
(src/graph/ops/graph/miscops.rs lines 161-181): keep an edge exactly when
some supplied vertex matches the start identifier and some supplied
vertex matches the end identifier. -/
def default_edge_policy (e : Edge) (vs : List Node) : Bool :=
  vs.any (fun v => v._id == e.start_node._id) && vs.any (fun v => v._id == e.end_node._id)

/-- get_subgraph_by_vertices from src/graph/ops/graph/miscops.rs lines
151-196, with the default policy (edge_policy = None): the kept edge set,
and the graph vertices whose identifier occurs in the supplied subset. -/
def get_subgraph_by_vertices (g : Graph) (ns : List Node) : List Node × List Edge :=
  let eset := g.edges.foldl
    (fun acc e => if default_edge_policy e ns then insertEdgeSet acc e else acc) []
  let vset := ns.map (fun n => n._id)
  let nset := (verticesList g).foldl
    (fun acc n => if vset.contains n._id then insertNodeSet acc n else acc) []
  (nset, eset)

/-- CycleInfo from src/graph/types/search.rs lines 33-39. -/
structure CycleInfo where
  _ancestor : String
  _before : String
  _ancestor_first_time_visit : Nat
  _ancestor_last_time_visit : Option Nat
  _current_final_time_visit : Nat
deriving DecidableEq, Repr

/-- Mutable traversal state of the engine: the DfsForestMaps record of
src/graph/types/search.rs together with the time counter that the source
passes alongside it. -/
structure DfsState where
  vertices : List (String × Node)
  first_visit : List (String × Nat)
  last_visit : List (String × Nat)
  pred : List (String × Option String)
  marked : List (String × Bool)
  identifiers : List String
  cycles : List (String × List CycleInfo)
  time : Nat
deriving DecidableEq, Repr

/-- HashMap lookup: the most recent binding of the key. -/
def mget (m : List (String × α)) (k : String) : Option α :=
  (m.find? (fun p => p.fst == k)).map (fun p => p.snd)

/-- HashMap insert, modelled by shadowing: observable only through mget. -/
def minsert (m : List (String × α)) (k : String) (v : α) : List (String × α) :=
  (k, v) :: m

/-- Lexicographic key of a string: its list of code points.  UTF-8 byte
order coincides with code-point order, so comparing keys is the
comparison Rust applies when sorting a Vec of Strings. -/
def strKey (s : String) : List Nat := s.data.map (fun c => c.toNat)

/-- String comparison used to model Vec::sort on identifiers. -/
def strLeProp (a b : String) : Prop := strKey a ≤ strKey b

instance : DecidableRel strLeProp := fun a b =>
  inferInstanceAs (Decidable (strKey a ≤ strKey b))

/-- HashMap::insert for the vertex map: replace the binding when the key
is present, append it otherwise (keys stay unique). -/
def mapInsertU (m : List (String × Node)) (k : String) (v : Node) : List (String × Node) :=
  if m.any (fun p => p.fst == k) then
    m.map (fun p => if p.fst == k then (k, v) else p)
  else m ++ [(k, v)]

/-- vmap from src/graph/traits/graph.rs: index the vertex set by
identifier. -/
def vmap (g : Graph) : List (String × Node) :=
  (verticesList g).map (fun n => (n._id, n))

/-- get_vertex_lst from src/graph/ops/graph/search.rs lines 210-224: the
caller-supplied start node is inserted into the vertex map, then all keys
are collected and sorted; the sorted key list is the root visiting
order. -/
def get_vertex_lst (vs : List (String × Node)) (start_node : Option Node) :
    List String × List (String × Node) :=
  let ns := match start_node with
    | some nref => mapInsertU vs nref._id nref
    | none => vs
  let vecs := List.insertionSort strLeProp (ns.map Prod.fst)
  (vecs, ns)

/-- Edge loop of dfs_forest (src/graph/ops/graph/search.rs lines 56-75):
for each generated edge take the opposite endpoint; recurse through
insert_to_pred_identifiers when it is unmarked.  The visit function is a
parameter so that the recursion is tied off by fuel in dfsVisit. -/
def dfsChildLoop (visit : String → DfsState → Except String DfsState)
    (unode : Node) (u : String) : List Edge → DfsState → Except String DfsState
  | [], st => Except.ok st
  | e :: es, st =>
    match get_other e unode with
    | none => Except.error "node does not belong to edge"
    | some vnode =>
      match mget st.marked vnode._id with
      | none => Except.error "node not in vertices"
      | some mark =>
        if mark then dfsChildLoop visit unode u es st
        else
          match visit vnode._id
              { st with pred := minsert st.pred vnode._id (some u),
                        identifiers := insertStrSet st.identifiers vnode._id } with
          | Except.error msg => Except.error msg
          | Except.ok st2 => dfsChildLoop visit unode u es st2

/-- Cycle detection loop of dfs_forest (src/graph/ops/graph/search.rs
lines 84-137), reproduced with its panics: the parent of u is read (a
missing entry or a root panics), a CycleInfo is built exactly when the
opposite endpoint equals the parent and its first visit time is below the
last visit time of u, and appending it panics when the cycles map has no
entry for u. -/
def dfsCycleLoop (unode : Node) (u : String) : List Edge → DfsState → Except String DfsState
  | [], st => Except.ok st
  | e :: es, st =>
    match get_other e unode with
    | none => Except.error "node does not belong to edge"
    | some vnode =>
      match mget st.pred u with
      | none => Except.error "node not in pred parent"
      | some none => Except.error "parent node is empty"
      | some (some unode_parent) =>
        if vnode._id == unode_parent then
          match mget st.last_visit u with
          | none => Except.error "node not in last visit times"
          | some u_last_visit =>
            match mget st.first_visit vnode._id with
            | none => Except.error "node not in last visit times"
            | some first_v =>
              if first_v < u_last_visit then
                match mget st.cycles u with
                | none => Except.error "node not in cycles"
                | some ucyc =>
                  dfsCycleLoop unode u es
                    { st with cycles := minsert st.cycles u (ucyc ++
                        [{ _ancestor := vnode._id, _before := u,
                           _ancestor_first_time_visit := first_v,
                           _ancestor_last_time_visit := mget st.last_visit vnode._id,
                           _current_final_time_visit := u_last_visit }]) }
              else dfsCycleLoop unode u es st
        else dfsCycleLoop unode u es st

/-- Entry bookkeeping of dfs_forest: mark u, advance the clock, stamp the
first visit of u with the new time. -/
def dfsEnter (u : String) (st : DfsState) : DfsState :=
  { st with marked := minsert st.marked u true,
            time := st.time + 1,
            first_visit := minsert st.first_visit u (st.time + 1) }

/-- Exit bookkeeping of dfs_forest: advance the clock, stamp the last
visit of u with the new time. -/
def dfsClose (u : String) (st : DfsState) : DfsState :=
  { st with time := st.time + 1,
            last_visit := minsert st.last_visit u (st.time + 1) }

/-- dfs_forest from src/graph/ops/graph/search.rs lines 30-144: mark u,
stamp its first visit, recurse into unmarked neighbors, stamp its last
visit, then run the cycle loop when cycle checking is on.  The free
occurrences of f, pred and cycles in the source body denote the
last_visit, pred and cycles fields of the DfsForestMaps record; panics
are modelled as errors, and recursion is tied off with fuel (the driver
supplies more fuel than there are vertices, and every recursive call
consumes a previously unmarked vertex).  The source performs the entry
bookkeeping before looking u up in the vertex map; since the panic
branch discards the state, performing the lookup first is equivalent. -/
def dfsVisit (gen : Node → List Edge) (check_cycle : Bool) :
    Nat → String → DfsState → Except String DfsState
  | 0, _, _ => Except.error "out of fuel"
  | Nat.succ fuel, u, st =>
    match mget st.vertices u with
    | none => Except.error "node not in vertices"
    | some unode =>
      match dfsChildLoop (dfsVisit gen check_cycle fuel) unode u (gen unode) (dfsEnter u st) with
      | Except.error msg => Except.error msg
      | Except.ok st3 =>
        if check_cycle then dfsCycleLoop unode u (gen unode) (dfsClose u st3)
        else Except.ok (dfsClose u st3)

/-- Result of a traversal: the final engine state, plus the per-root
predecessor maps and component member lists.  Modelled from the spec: the
source never assembles its DepthFirstResult (the function body of
depth_first_search ends without building one), so the forest/trees and
components assembly of spec step 3 is taken from the spec; the state
fields themselves are the maps the source computes. -/
structure DfsRun where
  final : DfsState
  trees : List (String × List (String × Option String))
  components : List (String × List String)
deriving DecidableEq, Repr

/-- Root loop of depth_first_search (src/graph/ops/graph/search.rs lines
249-276): visit each root in order when it is still unmarked, recreating
the pred map and the identifier set before each tree, per the source. -/
def dfsDriverLoop (gen : Node → List Edge) (check_cycle : Bool) (keys : List String)
    (fuel : Nat) :
    List String → DfsState →
    List (String × List (String × Option String)) → List (String × List String) →
    Except String DfsRun
  | [], st, trees, comps =>
    Except.ok { final := st, trees := trees.reverse, components := comps.reverse }
  | u :: us, st, trees, comps =>
    match mget st.marked u with
    | none => Except.error "key not exist in marked"
    | some true => dfsDriverLoop gen check_cycle keys fuel us st trees comps
    | some false =>
      let stIn : DfsState :=
        { st with pred := keys.map (fun k => (k, none)), identifiers := [] }
      match dfsVisit gen check_cycle fuel u stIn with
      | Except.error msg => Except.error msg
      | Except.ok st2 =>
        dfsDriverLoop gen check_cycle keys fuel us st2
          ((u, st2.pred) :: trees) ((u, u :: st2.identifiers) :: comps)

/-- depth_first_search from src/graph/ops/graph/search.rs lines 226-277:
build the vertex map, insert the optional start node, sort the keys, and
run the root loop over freshly initialised marked and visit-time maps
(visit times start at the usize::MAX sentinel). -/
def depth_first_search (g : Graph) (gen : Node → List Edge) (check_cycle : Bool)
    (start_node : Option Node) : Except String DfsRun :=
  let p := get_vertex_lst (vmap g) start_node
  let keys := p.snd.map Prod.fst
  let st0 : DfsState :=
    { vertices := p.snd,
      first_visit := keys.map (fun k => (k, USIZE_MAX)),
      last_visit := keys.map (fun k => (k, USIZE_MAX)),
      pred := [], marked := keys.map (fun k => (k, false)),
      identifiers := [], cycles := [], time := 0 }
  dfsDriverLoop gen check_cycle keys (keys.length + 1) p.fst st0 [] []

/-- edges_of from src/graph/ops/graph/edgeops.rs restricted to in-graph
nodes (the membership panic path is not exercised by the engine): the
incident edges of a node, in edge-set order.  This is the undirected
neighbor generator the spec names incident_edges. -/
def edges_of_list (g : Graph) (n : Node) : List Edge :=
  g.edges.filter (fun e => is_endvertice e n)

section SetLemmas

/-- Membership by identifier is preserved and extended by a hash-set
insert, for any element kind whose Rust equality implies equal
identifiers. -/
theorem idMem_hsInsert {α : Type} (idOf : α → String) (hash : α → List String)
    (eq : α → α → Bool) (heq : ∀ a b, eq a b = true → idOf a = idOf b)
    (s : List α) (a : α) (x : String) :
    (∃ m ∈ hsInsert hash eq s a, idOf m = x) ↔ (∃ m ∈ s, idOf m = x) ∨ idOf a = x := by
  unfold hsInsert
  by_cases hany : s.any (fun y => hash y == hash a && eq y a) = true
  · simp only [hany, if_pos]
    constructor
    · intro h
      exact Or.inl h
    · rintro (h | h)
      · exact h
      · rcases List.any_eq_true.mp hany with ⟨y, hy, hcond⟩
        rcases (Bool.and_eq_true _ _).mp hcond with ⟨-, hyeq⟩
        exact ⟨y, hy, (heq y a hyeq).trans h⟩
  · simp only [hany, if_neg, not_false_iff]
    constructor
    · rintro ⟨m, hm, hid⟩
      rcases List.mem_append.mp hm with hm' | hm'
      · exact Or.inl ⟨m, hm', hid⟩
      · rcases List.mem_singleton.mp hm' with rfl
        exact Or.inr hid
    · rintro (⟨m, hm, hid⟩ | h)
      · exact ⟨m, List.mem_append.mpr (Or.inl hm), hid⟩
      · exact ⟨a, List.mem_append.mpr (Or.inr (List.mem_singleton.mpr rfl)), h⟩

/-- Node-set insert in terms of identifier membership. -/
theorem idMemN_insert (s : List Node) (n : Node) (x : String) :
    idMemN (insertNodeSet s n) x ↔ idMemN s x ∨ n._id = x := by
  have h : ∀ a b : Node, nodeEqRust a b = true → a._id = b._id := by
    intro a b hab
    exact of_decide_eq_true hab
  exact idMem_hsInsert (fun n => n._id) nodeHashTokens nodeEqRust h s n x

/-- Edge-set insert in terms of identifier membership. -/
theorem idMemE_insert (s : List Edge) (e : Edge) (x : String) :
    idMemE (insertEdgeSet s e) x ↔ idMemE s x ∨ e.info.id = x := by
  have h : ∀ a b : Edge, edgeEqRust a b = true → a.info.id = b.info.id := by
    intro a b hab
    exact of_decide_eq_true hab
  exact idMem_hsInsert (fun e => e.info.id) edgeHashTokens edgeEqRust h s e x

/-- Identifier membership in the endpoint collection fold. -/
theorem idMemN_endpointNodes (es : List Edge) (x : String) :
    idMemN (endpointNodes es) x ↔ ∃ e ∈ es, e.start_node._id = x ∨ e.end_node._id = x := by
  unfold endpointNodes
  suffices h : ∀ (l : List Edge) (init : List Node),
      idMemN (l.foldl (fun acc e => insertNodeSet (insertNodeSet acc e.start_node) e.end_node) init) x ↔
        idMemN init x ∨ ∃ e ∈ l, e.start_node._id = x ∨ e.end_node._id = x by
    rw [h es []]
    simp [idMemN]
  intro l
  induction l with
  | nil => intro init; simp
  | cons e es ih =>
    intro init
    rw [List.foldl_cons, ih]
    rw [idMemN_insert, idMemN_insert]
    constructor
    · rintro (((h | h) | h) | ⟨e', he', h⟩)
      · exact Or.inl h
      · exact Or.inr ⟨e, List.mem_cons_self e es, Or.inl h⟩
      · exact Or.inr ⟨e, List.mem_cons_self e es, Or.inr h⟩
      · exact Or.inr ⟨e', List.mem_cons_of_mem e he', h⟩
    · rintro (h | ⟨e', he', h⟩)
      · exact Or.inl (Or.inl (Or.inl h))
      · rcases List.mem_cons.mp he' with rfl | he''
        · rcases h with h | h
          · exact Or.inl (Or.inl (Or.inr h))
          · exact Or.inl (Or.inr h)
        · exact Or.inr ⟨e', he'', h⟩

/-- Identifier membership in the vertex view of a graph: all edge
endpoints together with the stored isolated nodes. -/
theorem idMemN_verticesList (g : Graph) (x : String) :
    idMemN (verticesList g) x ↔
      (∃ e ∈ g.edges, e.start_node._id = x ∨ e.end_node._id = x) ∨ ∃ n ∈ g.nodes, n._id = x := by
  unfold verticesList
  suffices h : ∀ (l : List Node) (init : List Node),
      idMemN (l.foldl insertNodeSet init) x ↔ idMemN init x ∨ ∃ n ∈ l, n._id = x by
    rw [h g.nodes (endpointNodes g.edges), idMemN_endpointNodes]
  intro l
  induction l with
  | nil => intro init; simp
  | cons n ns ih =>
    intro init
    rw [List.foldl_cons, ih, idMemN_insert]
    constructor
    · rintro ((h | h) | ⟨m, hm, h⟩)
      · exact Or.inl h
      · exact Or.inr ⟨n, List.mem_cons_self n ns, h⟩
      · exact Or.inr ⟨m, List.mem_cons_of_mem n hm, h⟩
    · rintro (h | ⟨m, hm, h⟩)
      · exact Or.inl (Or.inl h)
      · rcases List.mem_cons.mp hm with rfl | hm'
        · exact Or.inl (Or.inr h)
        · exact Or.inr ⟨m, hm', h⟩

/-- Identifier membership after a filtered node-set fold. -/
theorem idMemN_foldl_filter (p : Node → Bool) (l : List Node) (x : String) :
    idMemN (l.foldl (fun acc n => if p n then insertNodeSet acc n else acc) []) x ↔
      ∃ n ∈ l, p n = true ∧ n._id = x := by
  suffices h : ∀ (l : List Node) (init : List Node),
      idMemN (l.foldl (fun acc n => if p n then insertNodeSet acc n else acc) init) x ↔
        idMemN init x ∨ ∃ n ∈ l, p n = true ∧ n._id = x by
    rw [h l []]
    simp [idMemN]
  intro l
  induction l with
  | nil => intro init; simp
  | cons n ns ih =>
    intro init
    rw [List.foldl_cons]
    by_cases hp : p n = true
    · rw [if_pos hp, ih, idMemN_insert]
      constructor
      · rintro ((h | h) | ⟨m, hm, h1, h2⟩)
        · exact Or.inl h
        · exact Or.inr ⟨n, List.mem_cons_self n ns, hp, h⟩
        · exact Or.inr ⟨m, List.mem_cons_of_mem n hm, h1, h2⟩
      · rintro (h | ⟨m, hm, h1, h2⟩)
        · exact Or.inl (Or.inl h)
        · rcases List.mem_cons.mp hm with rfl | hm'
          · exact Or.inl (Or.inr h2)
          · exact Or.inr ⟨m, hm', h1, h2⟩
    · rw [if_neg hp, ih]
      constructor
      · rintro (h | ⟨m, hm, h1, h2⟩)
        · exact Or.inl h
        · exact Or.inr ⟨m, List.mem_cons_of_mem n hm, h1, h2⟩
      · rintro (h | ⟨m, hm, h1, h2⟩)
        · exact Or.inl h
        · rcases List.mem_cons.mp hm with rfl | hm'
          · exact absurd h1 hp
          · exact Or.inr ⟨m, hm', h1, h2⟩

/-- Identifier membership after a filtered edge-set fold. -/
theorem idMemE_foldl_filter (p : Edge → Bool) (l : List Edge) (x : String) :
    idMemE (l.foldl (fun acc e => if p e then insertEdgeSet acc e else acc) []) x ↔
      ∃ e ∈ l, p e = true ∧ e.info.id = x := by
  suffices h : ∀ (l : List Edge) (init : List Edge),
      idMemE (l.foldl (fun acc e => if p e then insertEdgeSet acc e else acc) init) x ↔
        idMemE init x ∨ ∃ e ∈ l, p e = true ∧ e.info.id = x by
    rw [h l []]
    simp [idMemE]
  intro l
  induction l with
  | nil => intro init; simp
  | cons e es ih =>
    intro init
    rw [List.foldl_cons]
    by_cases hp : p e = true
    · rw [if_pos hp, ih, idMemE_insert]
      constructor
      · rintro ((h | h) | ⟨m, hm, h1, h2⟩)
        · exact Or.inl h
        · exact Or.inr ⟨e, List.mem_cons_self e es, hp, h⟩
        · exact Or.inr ⟨m, List.mem_cons_of_mem e hm, h1, h2⟩
      · rintro (h | ⟨m, hm, h1, h2⟩)
        · exact Or.inl (Or.inl h)
        · rcases List.mem_cons.mp hm with rfl | hm'
          · exact Or.inl (Or.inr h2)
          · exact Or.inr ⟨m, hm', h1, h2⟩
    · rw [if_neg hp, ih]
      constructor
      · rintro (h | ⟨m, hm, h1, h2⟩)
        · exact Or.inl h
        · exact Or.inr ⟨m, List.mem_cons_of_mem e hm, h1, h2⟩
      · rintro (h | ⟨m, hm, h1, h2⟩)
        · exact Or.inl h
        · rcases List.mem_cons.mp hm with rfl | hm'
          · exact absurd h1 hp
          · exact Or.inr ⟨m, hm', h1, h2⟩

/-- Elements of a hash-set insert come from the set or are the inserted
element. -/
theorem mem_hsInsert_elim {α : Type} (hash : α → List String) (eq : α → α → Bool)
    (s : List α) (x m : α) : m ∈ hsInsert hash eq s x → m ∈ s ∨ m = x := by
  unfold hsInsert
  by_cases hany : s.any (fun y => hash y == hash x && eq y x) = true
  · rw [if_pos hany]; exact Or.inl
  · rw [if_neg hany]
    intro h
    rcases List.mem_append.mp h with h | h
    · exact Or.inl h
    · exact Or.inr (List.mem_singleton.mp h)

/-- The any-test against Rust node equality is identifier membership. -/
theorem any_nodeEqRust_iff (s : List Node) (n : Node) :
    (s.any (fun m => nodeEqRust m n) = true) ↔ idMemN s n._id := by
  rw [List.any_eq_true]
  constructor
  · rintro ⟨m, hm, h⟩
    exact ⟨m, hm, of_decide_eq_true h⟩
  · rintro ⟨m, hm, h⟩
    exact ⟨m, hm, decide_eq_true h⟩

/-- is_endvertice holds exactly when the node identifier matches an
endpoint identifier. -/
theorem is_endvertice_iff (e : Edge) (n : Node) :
    is_endvertice e n = true ↔ n._id = e.start_node._id ∨ n._id = e.end_node._id := by
  unfold is_endvertice
  rw [List.elem_iff]
  have hids : ∀ x, x ∈ node_ids e ↔ x = e.start_node._id ∨ x = e.end_node._id := by
    intro x
    unfold node_ids insertStrSet
    by_cases h : (([] : List String) ++ [e.start_node._id]).any (fun y => y == e.end_node._id) = true
    · simp only [List.any_nil, Bool.false_eq_true, if_false, if_pos h]
      have heq : e.start_node._id = e.end_node._id := by
        rcases List.any_eq_true.mp h with ⟨y, hy, hyy⟩
        simp only [List.nil_append, List.mem_singleton] at hy
        subst hy
        exact of_decide_eq_true hyy
      simp [heq]
    · simp only [List.any_nil, Bool.false_eq_true, if_false, if_neg h]
      simp
  rw [hids]

/-- Elements of the positive-filtered edge fold come from the list and
pass the filter. -/
theorem mem_foldl_filterE (p : Edge → Bool) (l : List Edge) (m : Edge) :
    m ∈ l.foldl (fun acc e => if p e then insertEdgeSet acc e else acc) [] →
      m ∈ l ∧ p m = true := by
  suffices h : ∀ (l : List Edge) (init : List Edge),
      m ∈ l.foldl (fun acc e => if p e then insertEdgeSet acc e else acc) init →
        m ∈ init ∨ (m ∈ l ∧ p m = true) by
    intro hm
    rcases h l [] hm with h' | h'
    · exact absurd h' (List.not_mem_nil m)
    · exact h'
  intro l
  induction l with
  | nil => intro init h; exact Or.inl h
  | cons e es ih =>
    intro init h
    rw [List.foldl_cons] at h
    by_cases hp : p e = true
    · rw [if_pos hp] at h
      rcases ih _ h with h' | h'
      · rcases mem_hsInsert_elim _ _ _ _ _ h' with h'' | rfl
        · exact Or.inl h''
        · exact Or.inr ⟨List.mem_cons_self _ _, hp⟩
      · exact Or.inr ⟨List.mem_cons_of_mem _ h'.1, h'.2⟩
    · rw [if_neg hp] at h
      rcases ih _ h with h' | h'
      · exact Or.inl h'
      · exact Or.inr ⟨List.mem_cons_of_mem _ h'.1, h'.2⟩

/-- Elements of the positive-filtered node fold come from the list and
pass the filter. -/
theorem mem_foldl_filterN (p : Node → Bool) (l : List Node) (m : Node) :
    m ∈ l.foldl (fun acc n => if p n then insertNodeSet acc n else acc) [] →
      m ∈ l ∧ p m = true := by
  suffices h : ∀ (l : List Node) (init : List Node),
      m ∈ l.foldl (fun acc n => if p n then insertNodeSet acc n else acc) init →
        m ∈ init ∨ (m ∈ l ∧ p m = true) by
    intro hm
    rcases h l [] hm with h' | h'
    · exact absurd h' (List.not_mem_nil m)
    · exact h'
  intro l
  induction l with
  | nil => intro init h; exact Or.inl h
  | cons n ns ih =>
    intro init h
    rw [List.foldl_cons] at h
    by_cases hp : p n = true
    · rw [if_pos hp] at h
      rcases ih _ h with h' | h'
      · rcases mem_hsInsert_elim _ _ _ _ _ h' with h'' | rfl
        · exact Or.inl h''
        · exact Or.inr ⟨List.mem_cons_self _ _, hp⟩
      · exact Or.inr ⟨List.mem_cons_of_mem _ h'.1, h'.2⟩
    · rw [if_neg hp] at h
      rcases ih _ h with h' | h'
      · exact Or.inl h'
      · exact Or.inr ⟨List.mem_cons_of_mem _ h'.1, h'.2⟩

/-- Elements of the negatively-filtered node fold (the get_vertices
isolated-node pass) come from the list and fail the test. -/
theorem mem_foldl_filterNegN (q : Node → Bool) (l : List Node) (m : Node) :
    m ∈ l.foldl (fun acc n => if q n then acc else insertNodeSet acc n) [] →
      m ∈ l ∧ q m = false := by
  suffices h : ∀ (l : List Node) (init : List Node),
      m ∈ l.foldl (fun acc n => if q n then acc else insertNodeSet acc n) init →
        m ∈ init ∨ (m ∈ l ∧ q m = false) by
    intro hm
    rcases h l [] hm with h' | h'
    · exact absurd h' (List.not_mem_nil m)
    · exact h'
  intro l
  induction l with
  | nil => intro init h; exact Or.inl h
  | cons n ns ih =>
    intro init h
    rw [List.foldl_cons] at h
    by_cases hq : q n = true
    · rw [if_pos hq] at h
      rcases ih _ h with h' | h'
      · exact Or.inl h'
      · exact Or.inr ⟨List.mem_cons_of_mem _ h'.1, h'.2⟩
    · rw [if_neg hq] at h
      rcases ih _ h with h' | h'
      · rcases mem_hsInsert_elim _ _ _ _ _ h' with h'' | rfl
        · exact Or.inl h''
        · exact Or.inr ⟨List.mem_cons_self _ _, Bool.eq_false_iff.mpr hq⟩
      · exact Or.inr ⟨List.mem_cons_of_mem _ h'.1, h'.2⟩

/-- Identifier membership in the negatively-filtered node fold. -/
theorem idMemN_foldl_filterNeg (q : Node → Bool) (l : List Node) (x : String) :
    idMemN (l.foldl (fun acc n => if q n then acc else insertNodeSet acc n) []) x ↔
      ∃ n ∈ l, q n = false ∧ n._id = x := by
  suffices h : ∀ (l : List Node) (init : List Node),
      idMemN (l.foldl (fun acc n => if q n then acc else insertNodeSet acc n) init) x ↔
        idMemN init x ∨ ∃ n ∈ l, q n = false ∧ n._id = x by
    rw [h l []]
    simp [idMemN]
  intro l
  induction l with
  | nil => intro init; simp
  | cons n ns ih =>
    intro init
    rw [List.foldl_cons]
    by_cases hq : q n = true
    · rw [if_pos hq, ih]
      constructor
      · rintro (h | ⟨m, hm, h1, h2⟩)
        · exact Or.inl h
        · exact Or.inr ⟨m, List.mem_cons_of_mem _ hm, h1, h2⟩
      · rintro (h | ⟨m, hm, h1, h2⟩)
        · exact Or.inl h
        · rcases List.mem_cons.mp hm with rfl | hm'
          · rw [hq] at h1; exact absurd h1 (by simp)
          · exact Or.inr ⟨m, hm', h1, h2⟩
    · rw [if_neg hq, ih, idMemN_insert]
      constructor
      · rintro ((h | h) | ⟨m, hm, h1, h2⟩)
        · exact Or.inl h
        · exact Or.inr ⟨n, List.mem_cons_self _ _, Bool.eq_false_iff.mpr hq, h⟩
        · exact Or.inr ⟨m, List.mem_cons_of_mem _ hm, h1, h2⟩
      · rintro (h | ⟨m, hm, h1, h2⟩)
        · exact Or.inl (Or.inl h)
        · rcases List.mem_cons.mp hm with rfl | hm'
          · exact Or.inl (Or.inr h2)
          · exact Or.inr ⟨m, hm', h1, h2⟩

end SetLemmas

section Fixtures

/-- Node fixture builder, mirroring Node::empty of the source tests. -/
def mkNode (s : String) : Node := { _id := s, _data := [] }

/-- Undirected edge fixture builder, mirroring Edge::empty with
EdgeType::Undirected of the source tests. -/
def mkUEdge (eid a b : String) : Edge :=
  { info := { id := eid, data := [], edge_type := EdgeKind.Undirected },
    start_node := mkNode a, end_node := mkNode b }

/-- Edge with identifier id_x, red payload, directed, endpoints n1 and
n2: the edge_a fixture of the source equality test. -/
def edgeIdxA : Edge :=
  { info := { id := "id_x", data := [("color", ["red"])], edge_type := EdgeKind.Directed },
    start_node := mkNode "n1", end_node := mkNode "n2" }

/-- Edge with the same identifier id_x but blue payload, undirected,
endpoints n3 and n4: the edge_b fixture of the source equality test. -/
def edgeIdxB : Edge :=
  { info := { id := "id_x", data := [("color", ["blue"])], edge_type := EdgeKind.Undirected },
    start_node := mkNode "n3", end_node := mkNode "n4" }

/-- Self-loop edge on n1, as in the source incidence test fixture
Edge::empty with both endpoints n1. -/
def selfLoopEdge : Edge := mkUEdge "e2" "n1" "n1"

end Fixtures

/-- C6 counterexample: two edges with the same identifier id_x but
different endpoints compare equal under the Rust PartialEq for Edge, yet
their hash token streams differ (the Hash implementation also feeds the
endpoint nodes to the hasher), and inserting both into a hash-based edge
set keeps two elements rather than one. -/
theorem claim_C6_counterexample :
    edgeEqRust edgeIdxA edgeIdxB = true ∧
    edgeHashTokens edgeIdxA ≠ edgeHashTokens edgeIdxB ∧
    (insertEdgeSet (insertEdgeSet [] edgeIdxA) edgeIdxB).length = 2 := by
  refine ⟨by decide, by decide, by decide⟩

/-- C6 amended: Edge equality is by identifier alone, regardless of
endpoints, data or direction tag; but the edge hash feeds the endpoint
identifiers as well, so the hash agrees on equal edges only when their
endpoint identifiers also agree, and a hash-based edge set collapses two
equal edges to a single element only when their hashes agree. -/
theorem claim_C6 :
    (∀ a b : Edge, edgeEqRust a b = true ↔ a.info.id = b.info.id) ∧
    (∀ a b : Edge, edgeEqRust a b = true → a.start_node._id = b.start_node._id →
      a.end_node._id = b.end_node._id → edgeHashTokens a = edgeHashTokens b) ∧
    (∀ (s : List Edge) (a b : Edge), edgeEqRust a b = true →
      edgeHashTokens a = edgeHashTokens b →
      insertEdgeSet (insertEdgeSet s a) b = insertEdgeSet s a) := by
  refine ⟨?_, ?_, ?_⟩
  · intro a b
    constructor
    · intro h; exact of_decide_eq_true h
    · intro h; exact decide_eq_true h
  · intro a b heq hs he
    have hid : a.info.id = b.info.id := of_decide_eq_true heq
    simp [edgeHashTokens, nodeHashTokens, hid, hs, he]
  · intro s a b heq hhash
    unfold insertEdgeSet hsInsert
    by_cases hany : s.any (fun y => edgeHashTokens y == edgeHashTokens a && edgeEqRust y a) = true
    · rw [if_pos hany]
      have hb : s.any (fun y => edgeHashTokens y == edgeHashTokens b && edgeEqRust y b) = true := by
        rcases List.any_eq_true.mp hany with ⟨y, hy, hcond⟩
        rcases (Bool.and_eq_true _ _).mp hcond with ⟨h1, h2⟩
        refine List.any_eq_true.mpr ⟨y, hy, ?_⟩
        have hya : edgeHashTokens y = edgeHashTokens a := beq_iff_eq.mp h1
        have hyaid : y.info.id = a.info.id := of_decide_eq_true h2
        have habid : a.info.id = b.info.id := of_decide_eq_true heq
        refine (Bool.and_eq_true _ _).mpr ⟨beq_iff_eq.mpr (hya.trans hhash), ?_⟩
        exact decide_eq_true (hyaid.trans habid)
      rw [if_pos hb]
    · rw [if_neg hany]
      have hb : (s ++ [a]).any (fun y => edgeHashTokens y == edgeHashTokens b && edgeEqRust y b) = true := by
        refine List.any_eq_true.mpr ⟨a, List.mem_append.mpr (Or.inr (List.mem_singleton.mpr rfl)), ?_⟩
        exact (Bool.and_eq_true _ _).mpr ⟨beq_iff_eq.mpr hhash, heq⟩
      rw [if_pos hb]

/-- C6 witness: inserting the same edge twice (equal and with equal hash
tokens) into an edge set leaves the set unchanged. -/
theorem claim_C6_witness :
    insertEdgeSet (insertEdgeSet [] edgeIdxA) edgeIdxA = insertEdgeSet [] edgeIdxA :=
  claim_C6.2.2 [] edgeIdxA edgeIdxA (by decide) (by decide)

/-- C8 counterexample: on the self-loop edge with both endpoints n1,
get_other applied to the node n1 returns an endpoint whose identifier
equals the identifier of the queried node, so the returned endpoint does
not have a differing identifier as the claim states. -/
theorem claim_C8_counterexample :
    get_other selfLoopEdge (mkNode "n1") = some (mkNode "n1") ∧
    (mkNode "n1")._id = (mkNode "n1")._id := by
  exact ⟨by decide, rfl⟩

/-- C8 amended: get_other returns the opposite endpoint slot (the end
node when the queried identifier matches the start node, else the start
node when it matches the end node) and none when neither endpoint
matches; the identifier of the returned endpoint differs from the queried
identifier whenever the edge is not a self loop. -/
theorem claim_C8 (e : Edge) (n : Node) :
    (e.start_node._id = n._id → get_other e n = some e.end_node) ∧
    (e.start_node._id ≠ n._id → e.end_node._id = n._id → get_other e n = some e.start_node) ∧
    (e.start_node._id ≠ n._id → e.end_node._id ≠ n._id → get_other e n = none) ∧
    (e.start_node._id ≠ e.end_node._id →
      ∀ m : Node, get_other e n = some m → m._id ≠ n._id) := by
  refine ⟨?_, ?_, ?_, ?_⟩
  · intro h
    simp [get_other, h]
  · intro h1 h2
    simp [get_other, h1, h2]
  · intro h1 h2
    simp [get_other, h1, h2]
  · intro hne m hm hid
    unfold get_other at hm
    by_cases h1 : (e.start_node._id == n._id) = true
    · rw [if_pos h1] at hm
      rcases Option.some_inj.mp hm with rfl
      exact hne (((beq_iff_eq.mp h1)).trans hid.symm)
    · rw [if_neg h1] at hm
      by_cases h2 : (e.end_node._id == n._id) = true
      · rw [if_pos h2] at hm
        rcases Option.some_inj.mp hm with rfl
        exact h1 (beq_iff_eq.mpr hid)
      · rw [if_neg h2] at hm
        exact Option.noConfusion hm

/-- C8 witness: on the edge n1-n2 queried with n1, get_other returns the
endpoint n2. -/
theorem claim_C8_witness :
    get_other (mkUEdge "e1" "n1" "n2") (mkNode "n1") = some (mkNode "n2") :=
  (claim_C8 (mkUEdge "e1" "n1" "n2") (mkNode "n1")).1 (by decide)

/-- Graph fixture for the membership claim: a single edge whose
identifier n1n2 is not the identifier of any vertex. -/
def graphEdgeIdOnly : Graph := Graph.new "g" [] [] [mkUEdge "n1n2" "n1" "n2"]

/-- C10: is_in answers true exactly when the queried identifier equals
the identifier of some edge, of some edge endpoint, or of some vertex
remaining after the endpoint difference; in particular the node named
n1n2, which is not a vertex of the fixture graph, is reported as a member
because an edge carries that identifier, so node and edge identifier
namespaces are not distinguished. -/
theorem claim_C10 :
    (∀ (g : Graph) (x : Node),
      is_in_id g x._id = true ↔
        (∃ e ∈ g.edges, x._id = e.info.id) ∨
        (∃ e ∈ g.edges, x._id = e.start_node._id ∨ x._id = e.end_node._id) ∨
        (∃ n ∈ remainingVertices g, x._id = n._id)) ∧
    (is_in_id graphEdgeIdOnly (mkNode "n1n2")._id = true ∧
      ¬ idMemN (verticesList graphEdgeIdOnly) "n1n2") := by
  constructor
  · intro g x
    unfold is_in_id
    by_cases hany : g.edges.any (fun e => edgeHit e x._id) = true
    · rw [if_pos hany]
      simp only [true_iff]
      rcases List.any_eq_true.mp hany with ⟨e, he, hcond⟩
      unfold edgeHit at hcond
      rcases (Bool.or_eq_true _ _).mp hcond with h | h
      · rcases (Bool.or_eq_true _ _).mp h with h' | h'
        · exact Or.inl ⟨e, he, (of_decide_eq_true h').symm⟩
        · exact Or.inr (Or.inl ⟨e, he, Or.inl (of_decide_eq_true h').symm⟩)
      · exact Or.inr (Or.inl ⟨e, he, Or.inr (of_decide_eq_true h).symm⟩)
    · rw [if_neg hany]
      constructor
      · intro h
        rcases List.any_eq_true.mp h with ⟨n, hn, hid⟩
        exact Or.inr (Or.inr ⟨n, hn, (of_decide_eq_true hid).symm⟩)
      · rintro (⟨e, he, hid⟩ | ⟨e, he, hid⟩ | ⟨n, hn, hid⟩)
        · exact absurd (List.any_eq_true.mpr ⟨e, he,
            (Bool.or_eq_true _ _).mpr (Or.inl ((Bool.or_eq_true _ _).mpr
              (Or.inl (decide_eq_true hid.symm))))⟩) hany
        · rcases hid with hid | hid
          · exact absurd (List.any_eq_true.mpr ⟨e, he,
              (Bool.or_eq_true _ _).mpr (Or.inl ((Bool.or_eq_true _ _).mpr
                (Or.inr (decide_eq_true hid.symm))))⟩) hany
          · exact absurd (List.any_eq_true.mpr ⟨e, he,
              (Bool.or_eq_true _ _).mpr (Or.inr (decide_eq_true hid.symm))⟩) hany
        · exact List.any_eq_true.mpr ⟨n, hn, decide_eq_true hid.symm⟩
  · exact ⟨by decide, by decide⟩

/-- C5 counterexample: querying the neighbors of a node the is_in guard
rejects, or the incidence of such a node, terminates in a panic, not in
the typed NotInGraph error the claim promises; and the guard is not the
vertex-set test the claim names: the node n1n2 is not in the vertex set
of the fixture graph, yet neighbors_of returns an ordinary empty ok
result for it, because is_in accepts its identifier as an edge
identifier. -/
theorem claim_C5_counterexample :
    neighbors_of graphEdgeIdOnly (mkNode "n9") = Outcome.panicked "node not in graph" ∧
    neighbors_of graphEdgeIdOnly (mkNode "n9") ≠ Outcome.err GraphError.NotInGraph ∧
    is_node_incident graphEdgeIdOnly (mkUEdge "n1n2" "n1" "n2") (mkNode "n9") =
      Outcome.panicked "node not in graph" ∧
    (¬ idMemN (verticesList graphEdgeIdOnly) "n1n2") ∧
    neighbors_of graphEdgeIdOnly (mkNode "n1n2") = Outcome.ok [] := by
  refine ⟨by decide, by decide, by decide, by decide, by decide⟩

/-- C5 amended: the guard of the membership-dependent operations is the
is_in test, not the vertex set.  When is_in rejects the queried node (or
edge) — its identifier matches no edge identifier, no edge endpoint
identifier and no remaining vertex identifier — neighbors_of and
is_node_incident are process-fatal: they panic instead of returning a
recoverable typed NotInGraph error (no typed error value exists in the
source).  When is_in accepts the node, neighbors_of returns an ordinary
ok result, even for a node outside the vertex set whose identifier
collides with an edge identifier. -/
theorem claim_C5 :
    (∀ (g : Graph) (n : Node), is_in_id g n._id = false →
      neighbors_of g n = Outcome.panicked "node not in graph") ∧
    (∀ (g : Graph) (e : Edge) (n : Node), is_in_id g e.info.id = false →
      is_node_incident g e n = Outcome.panicked "edge not in graph") ∧
    (∀ (g : Graph) (e : Edge) (n : Node), is_in_id g e.info.id = true →
      is_in_id g n._id = false →
      is_node_incident g e n = Outcome.panicked "node not in graph") ∧
    (∀ (g : Graph) (n : Node), is_in_id g n._id = true →
      ∃ l, neighbors_of g n = Outcome.ok l) := by
  refine ⟨?_, ?_, ?_, ?_⟩
  · intro g n h
    simp [neighbors_of, h]
  · intro g e n h
    simp [is_node_incident, h]
  · intro g e n he hn
    simp [is_node_incident, he, hn]
  · intro g n h
    exact ⟨_, by unfold neighbors_of; rw [h]; rfl⟩

/-- C5 witness: the amended statement applied to a concrete graph and a
node with a fresh identifier. -/
theorem claim_C5_witness :
    neighbors_of graphEdgeIdOnly (mkNode "n7") = Outcome.panicked "node not in graph" :=
  claim_C5.1 graphEdgeIdOnly (mkNode "n7") (by decide)

/-- Structural invariant of a graph value claimed by C7: the vertex view
is the union (by identifier) of the stored isolated nodes and the edge
endpoints, every endpoint is a vertex, and stored isolated nodes have no
incident edge. -/
def graphInvariant (g : Graph) : Prop :=
  (∀ x : String, idMemN (verticesList g) x ↔
    (idMemN g.nodes x ∨ ∃ e ∈ g.edges, e.start_node._id = x ∨ e.end_node._id = x)) ∧
  (∀ e ∈ g.edges, idMemN (verticesList g) e.start_node._id ∧
    idMemN (verticesList g) e.end_node._id) ∧
  (∀ n ∈ g.nodes, ∀ e ∈ g.edges, is_endvertice e n = false)

/-- First two invariant conjuncts hold for every graph value, by the
shape of vertices(). -/
theorem graphInvariant_union_part (g : Graph) :
    (∀ x : String, idMemN (verticesList g) x ↔
      (idMemN g.nodes x ∨ ∃ e ∈ g.edges, e.start_node._id = x ∨ e.end_node._id = x)) ∧
    (∀ e ∈ g.edges, idMemN (verticesList g) e.start_node._id ∧
      idMemN (verticesList g) e.end_node._id) := by
  constructor
  · intro x
    rw [idMemN_verticesList]
    exact or_comm
  · intro e he
    constructor
    · exact (idMemN_verticesList g _).mpr (Or.inl ⟨e, he, Or.inl rfl⟩)
    · exact (idMemN_verticesList g _).mpr (Or.inl ⟨e, he, Or.inr rfl⟩)

/-- A graph whose stored node set is the isolated-node pass of
get_vertices satisfies the full invariant. -/
theorem graphInvariant_getv (gid : String) (gd : List (String × List String))
    (nodes : List Node) (edges : List Edge) :
    graphInvariant (Graph.mk gid gd (get_vertices nodes edges).snd edges) := by
  refine ⟨(graphInvariant_union_part _).1, (graphInvariant_union_part _).2, ?_⟩
  intro n hn e he
  rw [Bool.eq_false_iff]
  intro hev
  have hmem := mem_foldl_filterNegN
    (fun n => (endpointNodes edges).any (fun m => nodeEqRust m n)) nodes n hn
  have hend : idMemN (endpointNodes edges) n._id := by
    rcases (is_endvertice_iff e n).mp hev with h | h
    · exact (idMemN_endpointNodes edges n._id).mpr ⟨e, he, Or.inl h.symm⟩
    · exact (idMemN_endpointNodes edges n._id).mpr ⟨e, he, Or.inr h.symm⟩
  have hany := (any_nodeEqRust_iff (endpointNodes edges) n).mpr hend
  have h2 : ((endpointNodes edges).any fun m => nodeEqRust m n) = false := hmem.2
  rw [h2] at hany
  exact Bool.noConfusion hany

/-- C7: for every graph produced by a constructor, the vertex view is the
union of the stored isolated nodes and the edge endpoints, every edge
endpoint is a vertex even when absent from the supplied node set, and the
stored isolated-node set only holds nodes with no incident edge. -/
theorem claim_C7 :
    (∀ gid gd nodes edges, graphInvariant (Graph.new gid gd nodes edges)) ∧
    (∀ uuid edges nodes, graphInvariant (Graph.from_edge_node_set uuid edges nodes)) ∧
    (∀ uuid edges nodes, graphInvariant (Graph.based_on_node_set uuid edges nodes)) ∧
    (∀ uuid edges, graphInvariant (Graph.from_edgeset uuid edges)) ∧
    (∀ gid, graphInvariant (Graph.emptyG gid)) := by
  refine ⟨?_, ?_, ?_, ?_, ?_⟩
  · intro gid gd nodes edges
    exact graphInvariant_getv gid gd nodes edges
  · intro uuid edges nodes
    exact graphInvariant_getv uuid [] nodes edges
  · intro uuid edges nodes
    exact graphInvariant_getv uuid [] nodes _
  · intro uuid edges
    refine ⟨(graphInvariant_union_part _).1, (graphInvariant_union_part _).2, ?_⟩
    intro n hn
    exact absurd hn (List.not_mem_nil n)
  · intro gid
    refine ⟨(graphInvariant_union_part _).1, (graphInvariant_union_part _).2, ?_⟩
    intro n hn
    exact absurd hn (List.not_mem_nil n)

/-- C7 witness: the invariant instantiated on a concrete graph whose
supplied node set omits the edge endpoints and contains one isolated
node. -/
theorem claim_C7_witness :
    graphInvariant (Graph.new "g" [] [mkNode "n5"] [mkUEdge "e1" "n1" "n2"]) :=
  claim_C7.1 "g" [] [mkNode "n5"] [mkUEdge "e1" "n1" "n2"]

/-- Membership of an identifier in the identifier projection of a node
list. -/
theorem containsIds_iff (S : List Node) (x : String) :
    ((S.map (fun n => n._id)).contains x = true) ↔ ∃ v ∈ S, v._id = x := by
  rw [List.elem_iff]
  constructor
  · intro h
    rcases List.mem_map.mp h with ⟨v, hv, hvx⟩
    exact ⟨v, hv, hvx⟩
  · rintro ⟨v, hv, hvx⟩
    exact List.mem_map.mpr ⟨v, hv, hvx⟩

/-- The default subgraph edge policy in terms of identifier members. -/
theorem default_edge_policy_iff (e : Edge) (S : List Node) :
    default_edge_policy e S = true ↔
      (∃ v ∈ S, v._id = e.start_node._id) ∧ (∃ v ∈ S, v._id = e.end_node._id) := by
  unfold default_edge_policy
  rw [Bool.and_eq_true, List.any_eq_true, List.any_eq_true]
  constructor
  · rintro ⟨⟨v, hv, h1⟩, ⟨w, hw, h2⟩⟩
    exact ⟨⟨v, hv, of_decide_eq_true h1⟩, ⟨w, hw, of_decide_eq_true h2⟩⟩
  · rintro ⟨⟨v, hv, h1⟩, ⟨w, hw, h2⟩⟩
    exact ⟨⟨v, hv, decide_eq_true h1⟩, ⟨w, hw, decide_eq_true h2⟩⟩

/-- Identifier membership in the node part of a subgraph extraction. -/
theorem subgraph_fst_idMem (g : Graph) (S : List Node) (x : String) :
    idMemN (get_subgraph_by_vertices g S).fst x ↔
      ∃ n ∈ verticesList g, (S.map (fun n => n._id)).contains n._id = true ∧ n._id = x := by
  exact idMemN_foldl_filter _ _ x

/-- Identifier membership in the edge part of a subgraph extraction. -/
theorem subgraph_snd_idMem (g : Graph) (S : List Node) (x : String) :
    idMemE (get_subgraph_by_vertices g S).snd x ↔
      ∃ e ∈ g.edges, default_edge_policy e S = true ∧ e.info.id = x := by
  exact idMemE_foldl_filter _ _ x

/-- C9: subgraph extraction with the default edge policy is idempotent;
rebuilding a graph from the first extraction and extracting again with
the same vertex subset yields the same node set and the same edge set (as
identifier sets, which is how the Rust hash sets compare). -/
theorem claim_C9 (g : Graph) (S : List Node) :
    ∀ x : String,
      (idMemN (get_subgraph_by_vertices (Graph.new "sub" []
          (get_subgraph_by_vertices g S).fst (get_subgraph_by_vertices g S).snd) S).fst x ↔
        idMemN (get_subgraph_by_vertices g S).fst x) ∧
      (idMemE (get_subgraph_by_vertices (Graph.new "sub" []
          (get_subgraph_by_vertices g S).fst (get_subgraph_by_vertices g S).snd) S).snd x ↔
        idMemE (get_subgraph_by_vertices g S).snd x) := by
  intro x
  set N1 := (get_subgraph_by_vertices g S).fst with hN1
  set E1 := (get_subgraph_by_vertices g S).snd with hE1
  set g2 := Graph.new "sub" [] N1 E1 with hg2
  have hg2edges : g2.edges = E1 := rfl
  have hg2nodes : g2.nodes = (get_vertices N1 E1).snd := rfl
  constructor
  · rw [subgraph_fst_idMem]
    constructor
    · rintro ⟨n, hn, hcond, hid⟩
      have hv : idMemN (verticesList g2) x := ⟨n, hn, hid⟩
      rcases (idMemN_verticesList g2 x).mp hv with ⟨e, he, hx⟩ | ⟨m, hm, hmx⟩
      · rw [hg2edges] at he
        have hmem := mem_foldl_filterE _ _ _ he
        have hpol := (default_edge_policy_iff e S).mp hmem.2
        have hvg : idMemN (verticesList g) x := by
          rcases hx with hx | hx
          · exact (idMemN_verticesList g x).mpr (Or.inl ⟨e, hmem.1, Or.inl hx⟩)
          · exact (idMemN_verticesList g x).mpr (Or.inl ⟨e, hmem.1, Or.inr hx⟩)
        rcases hvg with ⟨m, hm, hmx⟩
        refine (subgraph_fst_idMem g S x).mpr ⟨m, hm, ?_, hmx⟩
        rw [hmx]
        rcases hx with hx | hx
        · rcases hpol.1 with ⟨v, hv', hvid⟩
          exact (containsIds_iff S x).mpr ⟨v, hv', hvid.trans hx⟩
        · rcases hpol.2 with ⟨v, hv', hvid⟩
          exact (containsIds_iff S x).mpr ⟨v, hv', hvid.trans hx⟩
      · rw [hg2nodes] at hm
        have hmem := mem_foldl_filterNegN _ _ _ hm
        exact ⟨m, hmem.1, hmx⟩
    · rintro ⟨m, hm, hmid⟩
      have hmN1 := mem_foldl_filterN _ _ _ hm
      have hvg2 : idMemN (verticesList g2) x := by
        by_cases hq : ((endpointNodes E1).any (fun p => nodeEqRust p m)) = true
        · have hend := (any_nodeEqRust_iff (endpointNodes E1) m).mp hq
          rcases (idMemN_endpointNodes E1 m._id).mp hend with ⟨e, he, hx⟩
          rw [← hg2edges] at he
          rcases hx with hx | hx
          · exact (idMemN_verticesList g2 x).mpr (Or.inl ⟨e, he, Or.inl (hx.trans hmid)⟩)
          · exact (idMemN_verticesList g2 x).mpr (Or.inl ⟨e, he, Or.inr (hx.trans hmid)⟩)
        · refine (idMemN_verticesList g2 x).mpr (Or.inr ?_)
          rw [hg2nodes]
          have : idMemN ((get_vertices N1 E1).snd) x := by
            refine (idMemN_foldl_filterNeg _ _ x).mpr ⟨m, hm, Bool.eq_false_iff.mpr hq, hmid⟩
          exact this
      rcases hvg2 with ⟨n2, hn2, hn2x⟩
      refine ⟨n2, hn2, ?_, hn2x⟩
      rw [hn2x, ← hmid]
      exact hmN1.2
  · rw [subgraph_snd_idMem]
    constructor
    · rintro ⟨e, he, hpol, hid⟩
      rw [hg2edges] at he
      have hmem := mem_foldl_filterE _ _ _ he
      exact ⟨e, he, hid⟩
    · rintro ⟨e, he, hid⟩
      have hmem := mem_foldl_filterE _ _ _ he
      refine ⟨e, ?_, hmem.2, hid⟩
      rw [hg2edges]
      exact he

/-- Triangle graph n1-n2-n3-n1, the spec cycle scenario. -/
def triangleGraph : Graph :=
  Graph.new "g1" [] [mkNode "n1", mkNode "n2", mkNode "n3"]
    [mkUEdge "n1n2" "n1" "n2", mkUEdge "n2n3" "n2" "n3", mkUEdge "n3n1" "n3" "n1"]

/-- Acyclic two-vertex path graph n1-n2. -/
def pathGraph : Graph :=
  Graph.new "g2" [] [mkNode "n1", mkNode "n2"] [mkUEdge "n1n2" "n1" "n2"]

/-- Star graph around n2 with the isolated node n5, the spec component
scenario. -/
def starGraph : Graph :=
  Graph.new "g3" [] [mkNode "n1", mkNode "n2", mkNode "n3", mkNode "n4", mkNode "n5"]
    [mkUEdge "e12" "n1" "n2", mkUEdge "e23" "n2" "n3", mkUEdge "e24" "n2" "n4"]

/-- C1: evaluating the engine with cycle checking on.  The cycle loop of
dfs_forest records a CycleInfo exactly when the neighbor equals the
immediate DFS-tree parent (the test is vid == pred of u, the opposite of
the claimed vid different from pred of u), it never walks the pred chain,
and the very first record attempt panics because the driver never seeds
the cycles map: the triangle run stops with the panic message, and even
the acyclic two-vertex path run stops with the same panic, though no
cycle exists. -/
theorem claim_C1_code_bug :
    depth_first_search triangleGraph (edges_of_list triangleGraph) true none =
      Except.error "node not in cycles" ∧
    depth_first_search pathGraph (edges_of_list pathGraph) true none =
      Except.error "node not in cycles" := by
  exact ⟨by rfl, by rfl⟩

/-- Two isolated vertices a and b, used to exhibit the root order. -/
def twoIsolatedGraph : Graph := Graph.new "g" [] [mkNode "a", mkNode "b"] []

/-- C3 counterexample: with the caller-supplied start vertex b, the root
visiting order is still the plain lexicographic order a, b; the start
vertex is not processed first. -/
theorem claim_C3_counterexample :
    (get_vertex_lst (vmap twoIsolatedGraph) (some (mkNode "b"))).fst = ["a", "b"] ∧
    (get_vertex_lst (vmap twoIsolatedGraph) (some (mkNode "b"))).fst.head? ≠ some "b" := by
  exact ⟨by rfl, by decide⟩

instance : IsTrans String strLeProp := ⟨fun _ _ _ hab hbc => le_trans hab hbc⟩

instance : IsTotal String strLeProp := ⟨fun a b => le_total (strKey a) (strKey b)⟩

/-- C3 amended: the root loop of depth_first_search iterates the vertex
identifiers in lexicographic order; a caller-supplied start vertex is
only inserted into the vertex map before sorting, so it is processed
first exactly when its identifier happens to be the smallest, not in
general. -/
theorem claim_C3 :
    (∀ (vs : List (String × Node)) (s : Option Node),
      List.Sorted strLeProp (get_vertex_lst vs s).fst ∧
      List.Perm (get_vertex_lst vs s).fst ((get_vertex_lst vs s).snd.map Prod.fst)) ∧
    (∀ (vs : List (String × Node)) (n : Node),
      (get_vertex_lst vs (some n)).fst = (get_vertex_lst (mapInsertU vs n._id n) none).fst) := by
  constructor
  · intro vs s
    constructor
    · exact List.sorted_insertionSort strLeProp _
    · exact List.perm_insertionSort strLeProp _
  · intro vs n
    rfl

/-- C4: the traversal is a deterministic function of the graph, the
neighbor generator (with its enumeration order), the cycle flag and the
start vertex: generators that agree pointwise give identical results,
discovery and finish maps and per-root tree data included. -/
theorem claim_C4 (g : Graph) (gen1 gen2 : Node → List Edge) (check_cycle : Bool)
    (start_node : Option Node) (h : ∀ n, gen1 n = gen2 n) :
    depth_first_search g gen1 check_cycle start_node =
      depth_first_search g gen2 check_cycle start_node := by
  have hg : gen1 = gen2 := funext h
  rw [hg]

/-- C4 witness: two runs on the star graph with the incident-edges
generator coincide. -/
theorem claim_C4_witness :
    depth_first_search starGraph (edges_of_list starGraph) false none =
      depth_first_search starGraph (edges_of_list starGraph) false none :=
  claim_C4 starGraph (edges_of_list starGraph) (edges_of_list starGraph) false none
    (fun _ => rfl)

section DfsProofs

/-- Lookup of a freshly inserted key. -/
theorem mget_minsert_self (m : List (String × α)) (k : String) (v : α) :
    mget (minsert m k v) k = some v := by
  simp [mget, minsert]

/-- Lookup of a different key is unchanged by an insert. -/
theorem mget_minsert_ne (m : List (String × α)) (k k' : String) (v : α) (h : k' ≠ k) :
    mget (minsert m k v) k' = mget m k' := by
  unfold mget minsert
  rw [List.find?_cons_of_neg _ (by simp only [beq_iff_eq]; exact fun hc => h hc.symm)]

/-- Lookup in a constant-initialised map. -/
theorem mget_const_map (keys : List String) (c : α) (k : String) :
    mget (keys.map (fun x => (x, c))) k = if k ∈ keys then some c else none := by
  induction keys with
  | nil => simp [mget]
  | cons a as ih =>
    by_cases h : a = k
    · subst h
      simp [mget]
    · unfold mget
      rw [List.map_cons,
        List.find?_cons_of_neg _ (by simp only [beq_iff_eq]; exact h)]
      rw [mget] at ih
      rw [ih]
      by_cases hk : k ∈ as
      · rw [if_pos hk, if_pos (List.mem_cons_of_mem a hk)]
      · rw [if_neg hk, if_neg (by
          intro hc
          rcases List.mem_cons.mp hc with hc | hc
          · exact h hc.symm
          · exact hk hc)]

/-- A vertex is visited when its marked entry is true. -/
def visitedV (st : DfsState) (k : String) : Prop := mget st.marked k = some true

/-- Engine-state invariant relative to the list O of currently open
vertices (vertices whose visit has started and not yet closed): open
vertices are visited and discovered within the clock, and every visited
vertex outside O is closed with a well-formed interval; closed intervals
are pairwise nested or disjoint. -/
structure InvS (st : DfsState) (O : List String) : Prop where
  openVisited : ∀ k ∈ O, visitedV st k
  dBound : ∀ k, visitedV st k →
    ∃ td, mget st.first_visit k = some td ∧ 0 < td ∧ td ≤ st.time
  closedBound : ∀ k, visitedV st k → k ∉ O →
    ∃ td tf, mget st.first_visit k = some td ∧ mget st.last_visit k = some tf ∧
      td < tf ∧ tf ≤ st.time
  pairs : ∀ j k, visitedV st j → j ∉ O → visitedV st k → k ∉ O → j ≠ k →
    ∀ dj fj dk fk, mget st.first_visit j = some dj → mget st.last_visit j = some fj →
      mget st.first_visit k = some dk → mget st.last_visit k = some fk →
      fj < dk ∨ fk < dj ∨ (dj < dk ∧ fk < fj) ∨ (dk < dj ∧ fj < fk)

/-- Monotone preservation facts between two engine states reached by the
same run: the clock only advances, visited vertices stay visited with
their stamps, and the marked key domain is stable. -/
structure MPost (st st' : DfsState) : Prop where
  timeMono : st.time ≤ st'.time
  keepVisited : ∀ k, visitedV st k → visitedV st' k
  keepD : ∀ k, visitedV st k → mget st'.first_visit k = mget st.first_visit k
  keepF : ∀ k, visitedV st k → mget st'.last_visit k = mget st.last_visit k
  domain : ∀ k, (mget st'.marked k).isSome = (mget st.marked k).isSome

/-- Every vertex first visited between the two states is closed inside
the elapsed clock window. -/
def NewClosed (st st' : DfsState) : Prop :=
  ∀ k, ¬ visitedV st k → visitedV st' k →
    ∃ td tf, mget st'.first_visit k = some td ∧ mget st'.last_visit k = some tf ∧
      st.time < td ∧ td < tf ∧ tf ≤ st'.time

theorem mpostRefl (st : DfsState) : MPost st st :=
  ⟨le_refl _, fun _ h => h, fun _ _ => rfl, fun _ _ => rfl, fun _ => rfl⟩

theorem mpostTrans {st0 st1 st2 : DfsState} (h1 : MPost st0 st1) (h2 : MPost st1 st2) :
    MPost st0 st2 := by
  refine ⟨le_trans h1.timeMono h2.timeMono, ?_, ?_, ?_, ?_⟩
  · intro k hk
    exact h2.keepVisited k (h1.keepVisited k hk)
  · intro k hk
    exact (h2.keepD k (h1.keepVisited k hk)).trans (h1.keepD k hk)
  · intro k hk
    exact (h2.keepF k (h1.keepVisited k hk)).trans (h1.keepF k hk)
  · intro k
    exact (h2.domain k).trans (h1.domain k)

theorem newClosedRefl (st : DfsState) : NewClosed st st :=
  fun _ h h' => absurd h' h

theorem newClosedTrans {st0 st1 st2 : DfsState} (m1 : MPost st0 st1) (m2 : MPost st1 st2)
    (n1 : NewClosed st0 st1) (n2 : NewClosed st1 st2) : NewClosed st0 st2 := by
  intro k h0 h2
  by_cases h1 : visitedV st1 k
  · rcases n1 k h0 h1 with ⟨td, tf, hd, hf, h3, h4, h5⟩
    exact ⟨td, tf, (m2.keepD k h1).trans hd, (m2.keepF k h1).trans hf,
      h3, h4, le_trans h5 m2.timeMono⟩
  · rcases n2 k h1 h2 with ⟨td, tf, hd, hf, h3, h4, h5⟩
    exact ⟨td, tf, hd, hf, lt_of_le_of_lt m1.timeMono h3, h4, h5⟩

/-- The invariant only concerns the marked, visit-time and time fields,
so updating the pred and identifier components preserves it. -/
theorem InvS_update (st : DfsState) (O : List String)
    (p : List (String × Option String)) (i : List String) (h : InvS st O) :
    InvS { st with pred := p, identifiers := i } O :=
  ⟨h.openVisited, h.dBound, h.closedBound, h.pairs⟩

/-- Conversely, facts between the updated state and a third state carry
back to the original state. -/
theorem MPost_of_update {st st2 : DfsState} {p : List (String × Option String)}
    {i : List String} (h : MPost { st with pred := p, identifiers := i } st2) :
    MPost st st2 :=
  ⟨h.timeMono, h.keepVisited, h.keepD, h.keepF, h.domain⟩

theorem NewClosed_of_update {st st2 : DfsState} {p : List (String × Option String)}
    {i : List String} (h : NewClosed { st with pred := p, identifiers := i } st2) :
    NewClosed st st2 :=
  h

/-- Transport of the invariant along equality of the observable
fields. -/
theorem InvS_of_fields {st st' : DfsState} {O : List String}
    (hm : st'.marked = st.marked) (hd : st'.first_visit = st.first_visit)
    (hf : st'.last_visit = st.last_visit) (ht : st'.time = st.time)
    (h : InvS st O) : InvS st' O := by
  refine ⟨?_, ?_, ?_, ?_⟩
  · intro k hk
    unfold visitedV
    rw [hm]
    exact h.openVisited k hk
  · intro k hk
    unfold visitedV at hk
    rw [hm] at hk
    rw [hd, ht]
    exact h.dBound k hk
  · intro k hk hko
    unfold visitedV at hk
    rw [hm] at hk
    rw [hd, hf, ht]
    exact h.closedBound k hk hko
  · intro j k hj hjo hk hko hjk
    unfold visitedV at hj hk
    rw [hm] at hj hk
    rw [hd, hf]
    exact h.pairs j k hj hjo hk hko hjk

/-- The cycle loop never touches the marked, visit-time or clock
fields. -/
theorem cycleLoop_fields (unode : Node) (u : String) :
    ∀ (es : List Edge) (st st' : DfsState),
      dfsCycleLoop unode u es st = Except.ok st' →
      st'.marked = st.marked ∧ st'.first_visit = st.first_visit ∧
        st'.last_visit = st.last_visit ∧ st'.time = st.time := by
  intro es
  induction es with
  | nil =>
    intro st st' h
    simp only [dfsCycleLoop] at h
    rcases Except.ok.inj h with rfl
    exact ⟨rfl, rfl, rfl, rfl⟩
  | cons e es ih =>
    intro st st' h
    simp only [dfsCycleLoop] at h
    split at h
    · exact Except.noConfusion h
    · split at h
      · exact Except.noConfusion h
      · exact Except.noConfusion h
      · split at h
        · split at h
          · exact Except.noConfusion h
          · split at h
            · exact Except.noConfusion h
            · split at h
              · split at h
                · exact Except.noConfusion h
                · have hih := ih _ _ h
                  exact hih
              · exact ih _ _ h
        · exact ih _ _ h

/-- Marked-domain stability under an insert of an already-present key. -/
theorem isSome_minsert (m : List (String × α)) (u k : String) (v : α)
    (h : (mget m u).isSome = true) :
    (mget (minsert m u v) k).isSome = (mget m k).isSome := by
  by_cases hk : k = u
  · subst hk
    rw [mget_minsert_self]
    simp [h]
  · rw [mget_minsert_ne _ _ _ _ hk]

/-- States with equal observable fields are monotone successors of each
other. -/
theorem MPost_of_fields {st st' : DfsState}
    (hm : st'.marked = st.marked) (hd : st'.first_visit = st.first_visit)
    (hf : st'.last_visit = st.last_visit) (ht : st'.time = st.time) :
    MPost st st' := by
  refine ⟨le_of_eq ht.symm, ?_, ?_, ?_, ?_⟩
  · intro k hk
    unfold visitedV
    rw [hm]
    exact hk
  · intro k _
    rw [hd]
  · intro k _
    rw [hf]
  · intro k
    rw [hm]

/-- No vertex is newly visited between states with the same marked
map. -/
theorem NewClosed_of_fields {st st' : DfsState} (hm : st'.marked = st.marked) :
    NewClosed st st' := by
  intro k h h'
  unfold visitedV at h'
  rw [hm] at h'
  exact absurd h' h

/-- Specification of one visit call: from an invariant state with u
unmarked, a successful call advances the state monotonically, closes
every newly visited vertex inside the elapsed clock window, and
re-establishes the invariant for the same open stack. -/
def VisitSpec (visit : String → DfsState → Except String DfsState) : Prop :=
  ∀ (u : String) (st st' : DfsState) (O : List String),
    InvS st O → mget st.marked u = some false → visit u st = Except.ok st' →
    MPost st st' ∧ NewClosed st st' ∧ InvS st' O

/-- The neighbor loop satisfies the same monotone contract as a single
visit when the visit function it recurses through does. -/
theorem childLoop_spec (visit : String → DfsState → Except String DfsState)
    (hv : VisitSpec visit) (unode : Node) (u : String) :
    ∀ (es : List Edge) (st st' : DfsState) (O : List String),
      InvS st O → dfsChildLoop visit unode u es st = Except.ok st' →
      MPost st st' ∧ NewClosed st st' ∧ InvS st' O := by
  intro es
  induction es with
  | nil =>
    intro st st' O hInv h
    simp only [dfsChildLoop] at h
    rcases Except.ok.inj h with rfl
    exact ⟨mpostRefl st, newClosedRefl st, hInv⟩
  | cons e es ih =>
    intro st st' O hInv h
    simp only [dfsChildLoop] at h
    split at h
    · exact Except.noConfusion h
    · rename_i vnode hgo
      split at h
      · exact Except.noConfusion h
      · rename_i mark hmark
        split at h
        · exact ih st st' O hInv h
        · rename_i hmarkFalse
          split at h
          · exact Except.noConfusion h
          · rename_i st2 hvis
            have hmFalse : mark = false := Bool.eq_false_iff.mpr hmarkFalse
            subst hmFalse
            have hInvP : InvS ({ st with pred := minsert st.pred vnode._id (some u),
                                         identifiers := insertStrSet st.identifiers vnode._id }) O :=
              InvS_update st O _ _ hInv
            rcases hv vnode._id _ st2 O hInvP hmark hvis with ⟨m1, n1, hInv2⟩
            rcases ih st2 st' O hInv2 h with ⟨m2, n2, hInv3⟩
            refine ⟨mpostTrans (MPost_of_update m1) m2, ?_, hInv3⟩
            exact newClosedTrans (MPost_of_update m1) m2 (NewClosed_of_update n1) n2

/-- The visit function of the engine satisfies its specification at every
fuel level: this is the inductive heart of the parenthesization
theorem. -/
theorem dfsVisit_spec (gen : Node → List Edge) (cc : Bool) :
    ∀ fuel : Nat, VisitSpec (dfsVisit gen cc fuel) := by
  intro fuel
  induction fuel with
  | zero =>
    intro u st st' O hInv hm h
    exact Except.noConfusion h
  | succ fuel ih =>
    intro u st st' O hInv hm h
    simp only [dfsVisit] at h
    split at h
    · exact Except.noConfusion h
    · rename_i unode hvert
      split at h
      · exact Except.noConfusion h
      · rename_i st3 hcl
        -- facts about the entry state
        have hUnotO : u ∉ O := by
          intro hO
          have := hInv.openVisited u hO
          unfold visitedV at this
          rw [hm] at this
          exact Option.noConfusion this (fun hfb => Bool.noConfusion hfb)
        have hUvisE : visitedV (dfsEnter u st) u := by
          unfold visitedV dfsEnter
          exact mget_minsert_self _ _ _
        have hEvis_ne : ∀ k, k ≠ u → (visitedV (dfsEnter u st) k ↔ visitedV st k) := by
          intro k hk
          unfold visitedV dfsEnter
          rw [mget_minsert_ne _ _ _ _ hk]
        have hEd_ne : ∀ k, k ≠ u →
            mget (dfsEnter u st).first_visit k = mget st.first_visit k := by
          intro k hk
          unfold dfsEnter
          exact mget_minsert_ne _ _ _ _ hk
        have hEd_u : mget (dfsEnter u st).first_visit u = some (st.time + 1) := by
          unfold dfsEnter
          exact mget_minsert_self _ _ _
        have hEf : (dfsEnter u st).last_visit = st.last_visit := rfl
        have hEt : (dfsEnter u st).time = st.time + 1 := rfl
        have hInvE : InvS (dfsEnter u st) (u :: O) := by
          refine ⟨?_, ?_, ?_, ?_⟩
          · intro k hk
            rcases List.mem_cons.mp hk with rfl | hk'
            · exact hUvisE
            · by_cases hku : k = u
              · subst hku
                exact hUvisE
              · exact (hEvis_ne k hku).mpr (hInv.openVisited k hk')
          · intro k hk
            by_cases hku : k = u
            · subst hku
              exact ⟨st.time + 1, hEd_u, Nat.succ_pos _, le_of_eq hEt.symm⟩
            · rcases hInv.dBound k ((hEvis_ne k hku).mp hk) with ⟨td, h1, h2, h3⟩
              exact ⟨td, (hEd_ne k hku).trans h1, h2,
                le_trans h3 (by rw [hEt]; exact Nat.le_succ _)⟩
          · intro k hk hkO
            have hku : k ≠ u := fun hq => hkO (hq ▸ List.mem_cons_self _ _)
            have hkO' : k ∉ O := fun hq => hkO (List.mem_cons_of_mem _ hq)
            rcases hInv.closedBound k ((hEvis_ne k hku).mp hk) hkO' with
              ⟨td, tf, h1, h2, h3, h4⟩
            exact ⟨td, tf, (hEd_ne k hku).trans h1, (hEf ▸ h2), h3,
              le_trans h4 (by rw [hEt]; exact Nat.le_succ _)⟩
          · intro j k hj hjO hk hkO hjk dj fj dk fk hdj hfj hdk hfk
            have hju : j ≠ u := fun hq => hjO (hq ▸ List.mem_cons_self _ _)
            have hku : k ≠ u := fun hq => hkO (hq ▸ List.mem_cons_self _ _)
            have hjO' : j ∉ O := fun hq => hjO (List.mem_cons_of_mem _ hq)
            have hkO' : k ∉ O := fun hq => hkO (List.mem_cons_of_mem _ hq)
            refine hInv.pairs j k ((hEvis_ne j hju).mp hj) hjO'
              ((hEvis_ne k hku).mp hk) hkO' hjk dj fj dk fk ?_ ?_ ?_ ?_
            · exact ((hEd_ne j hju).symm.trans hdj)
            · exact (hEf ▸ hfj)
            · exact ((hEd_ne k hku).symm.trans hdk)
            · exact (hEf ▸ hfk)
        rcases childLoop_spec (dfsVisit gen cc fuel) ih unode u (gen unode)
          (dfsEnter u st) st3 (u :: O) hInvE hcl with ⟨m1, n1, hInv3⟩
        -- facts about st3 and the closing state
        have hUvis3 : visitedV st3 u := m1.keepVisited u hUvisE
        have hUd3 : mget st3.first_visit u = some (st.time + 1) :=
          (m1.keepD u hUvisE).trans hEd_u
        have htE3 : st.time + 1 ≤ st3.time := hEt ▸ m1.timeMono
        have hCt : (dfsClose u st3).time = st3.time + 1 := rfl
        have hCm : (dfsClose u st3).marked = st3.marked := rfl
        have hCd : (dfsClose u st3).first_visit = st3.first_visit := rfl
        have hCf_u : mget (dfsClose u st3).last_visit u = some (st3.time + 1) := by
          unfold dfsClose
          exact mget_minsert_self _ _ _
        have hCf_ne : ∀ k, k ≠ u →
            mget (dfsClose u st3).last_visit k = mget st3.last_visit k := by
          intro k hk
          unfold dfsClose
          exact mget_minsert_ne _ _ _ _ hk
        -- every vertex visited in st but not equal to u: stamps survive
        have hvis_st_ne_u : ∀ k, visitedV st k → k ≠ u := by
          intro k hk hq
          subst hq
          unfold visitedV at hk
          rw [hm] at hk
          exact Option.noConfusion hk (fun hfb => Bool.noConfusion hfb)
        have hkeepD : ∀ k, visitedV st k →
            mget (dfsClose u st3).first_visit k = mget st.first_visit k := by
          intro k hk
          have hku := hvis_st_ne_u k hk
          rw [hCd, m1.keepD k ((hEvis_ne k hku).mpr hk), hEd_ne k hku]
        have hkeepF : ∀ k, visitedV st k →
            mget (dfsClose u st3).last_visit k = mget st.last_visit k := by
          intro k hk
          have hku := hvis_st_ne_u k hk
          rw [hCf_ne k hku, m1.keepF k ((hEvis_ne k hku).mpr hk), hEf]
        have hkeepVis : ∀ k, visitedV st k → visitedV (dfsClose u st3) k := by
          intro k hk
          have hku := hvis_st_ne_u k hk
          have : visitedV st3 k := m1.keepVisited k ((hEvis_ne k hku).mpr hk)
          unfold visitedV
          rw [hCm]
          exact this
        have hdomain : ∀ k,
            (mget (dfsClose u st3).marked k).isSome = (mget st.marked k).isSome := by
          intro k
          rw [hCm, m1.domain k]
          show (mget (minsert st.marked u true) k).isSome = (mget st.marked k).isSome
          exact isSome_minsert _ _ _ _ (by rw [hm]; rfl)
        have mC : MPost st (dfsClose u st3) := by
          refine ⟨?_, hkeepVis, hkeepD, hkeepF, hdomain⟩
          rw [hCt]
          exact le_trans (Nat.le_succ _) (le_trans htE3 (Nat.le_succ _))
        -- marked flips exactly for vertices visited during the call
        have hvisC_iff : ∀ k, visitedV (dfsClose u st3) k ↔ visitedV st3 k := by
          intro k
          unfold visitedV
          rw [hCm]
        have nC : NewClosed st (dfsClose u st3) := by
          intro k hk hk'
          by_cases hku : k = u
          · subst hku
            refine ⟨st.time + 1, st3.time + 1, ?_, hCf_u, Nat.lt_succ_self _, ?_, le_of_eq hCt.symm⟩
            · rw [hCd]
              exact hUd3
            · exact Nat.lt_succ_of_le htE3
          · have hkE : ¬ visitedV (dfsEnter u st) k := fun hq => hk ((hEvis_ne k hku).mp hq)
            rcases n1 k hkE ((hvisC_iff k).mp hk') with ⟨td, tf, h1, h2, h3, h4, h5⟩
            refine ⟨td, tf, ?_, ?_, ?_, h4, ?_⟩
            · rw [hCd]; exact h1
            · rw [hCf_ne k hku]; exact h2
            · exact lt_of_le_of_lt (hEt ▸ Nat.le_succ _) h3
            · rw [hCt]; exact le_trans h5 (Nat.le_succ _)
        have hInvC : InvS (dfsClose u st3) O := by
          refine ⟨?_, ?_, ?_, ?_⟩
          · intro k hk
            exact (hvisC_iff k).mpr (hInv3.openVisited k (List.mem_cons_of_mem _ hk))
          · intro k hk
            rcases hInv3.dBound k ((hvisC_iff k).mp hk) with ⟨td, h1, h2, h3⟩
            refine ⟨td, ?_, h2, ?_⟩
            · rw [hCd]; exact h1
            · rw [hCt]; exact le_trans h3 (Nat.le_succ _)
          · intro k hk hkO
            by_cases hku : k = u
            · subst hku
              refine ⟨st.time + 1, st3.time + 1, ?_, hCf_u, Nat.lt_succ_of_le htE3, le_of_eq hCt.symm⟩
              rw [hCd]
              exact hUd3
            · rcases hInv3.closedBound k ((hvisC_iff k).mp hk)
                (fun hq => (List.mem_cons.mp hq).elim (fun h' => hku h') (fun h' => hkO h'))
                with ⟨td, tf, h1, h2, h3, h4⟩
              refine ⟨td, tf, ?_, ?_, h3, ?_⟩
              · rw [hCd]; exact h1
              · rw [hCf_ne k hku]; exact h2
              · rw [hCt]; exact le_trans h4 (Nat.le_succ _)
          · intro j k hj hjO hk hkO hjk dj fj dk fk hdj hfj hdk hfk
            -- u against another closed vertex: u contains the new, avoids the old
            have hucase : ∀ w dw fw, w ≠ u → visitedV (dfsClose u st3) w → w ∉ O →
                mget (dfsClose u st3).first_visit w = some dw →
                mget (dfsClose u st3).last_visit w = some fw →
                (fw < st.time + 1 ∧ fw ≤ st.time) ∨
                  (st.time + 1 < dw ∧ fw < st3.time + 1) := by
              intro w dw fw hwu hwvis hwO hdw hfw
              rw [hCd] at hdw
              rw [hCf_ne w hwu] at hfw
              by_cases hwE : visitedV (dfsEnter u st) w
              · have hwst : visitedV st w := (hEvis_ne w hwu).mp hwE
                rcases hInv.closedBound w hwst hwO with ⟨td0, tf0, h1, h2, h3, h4⟩
                have hd0 : mget st3.first_visit w = some td0 := by
                  rw [m1.keepD w hwE, hEd_ne w hwu]
                  exact h1
                have hf0 : mget st3.last_visit w = some tf0 := by
                  rw [m1.keepF w hwE, hEf]
                  exact h2
                have : fw = tf0 := Option.some_inj.mp (hfw.symm.trans hf0)
                subst this
                exact Or.inl ⟨Nat.lt_succ_of_le h4, h4⟩
              · rcases n1 w hwE ((hvisC_iff w).mp hwvis) with ⟨td, tf, h1, h2, h3, h4, h5⟩
                have hdq : dw = td := Option.some_inj.mp (hdw.symm.trans h1)
                have hfq : fw = tf := Option.some_inj.mp (hfw.symm.trans h2)
                subst hdq
                subst hfq
                exact Or.inr ⟨hEt ▸ h3, Nat.lt_succ_of_le h5⟩
            by_cases hju : j = u
            · rw [hju] at hdj hfj
              have hdju : dj = st.time + 1 := by
                rw [hCd] at hdj
                exact Option.some_inj.mp (hdj.symm.trans hUd3)
              have hfju : fj = st3.time + 1 := Option.some_inj.mp (hfj.symm.trans hCf_u)
              have hku : k ≠ u := fun hq => hjk (hju.trans hq.symm)
              rcases hucase k dk fk hku hk hkO hdk hfk with ⟨h1, h2⟩ | ⟨h1, h2⟩
              · rw [hdju]
                exact Or.inr (Or.inl h1)
              · rw [hdju, hfju]
                exact Or.inr (Or.inr (Or.inl ⟨h1, h2⟩))
            · by_cases hku : k = u
              · rw [hku] at hdk hfk
                have hdku : dk = st.time + 1 := by
                  rw [hCd] at hdk
                  exact Option.some_inj.mp (hdk.symm.trans hUd3)
                have hfku : fk = st3.time + 1 := Option.some_inj.mp (hfk.symm.trans hCf_u)
                rcases hucase j dj fj hju hj hjO hdj hfj with ⟨h1, h2⟩ | ⟨h1, h2⟩
                · rw [hdku]
                  exact Or.inl h1
                · rw [hdku, hfku]
                  exact Or.inr (Or.inr (Or.inr ⟨h1, h2⟩))
              · have hjC : j ∉ (u :: O) :=
                  fun hq => (List.mem_cons.mp hq).elim (fun h' => hju h') (fun h' => hjO h')
                have hkC : k ∉ (u :: O) :=
                  fun hq => (List.mem_cons.mp hq).elim (fun h' => hku h') (fun h' => hkO h')
                refine hInv3.pairs j k ((hvisC_iff j).mp hj) hjC ((hvisC_iff k).mp hk) hkC hjk
                  dj fj dk fk ?_ ?_ ?_ ?_
                · rw [hCd] at hdj; exact hdj
                · rw [hCf_ne j hju] at hfj; exact hfj
                · rw [hCd] at hdk; exact hdk
                · rw [hCf_ne k hku] at hfk; exact hfk
        -- final step: the optional cycle loop only rewrites the cycles map
        by_cases hcc : cc = true
        · rw [if_pos hcc] at h
          rcases cycleLoop_fields unode u (gen unode) (dfsClose u st3) st' h with
            ⟨hm', hd', hf', ht'⟩
          refine ⟨mpostTrans mC (MPost_of_fields hm' hd' hf' ht'), ?_, ?_⟩
          · exact newClosedTrans mC (MPost_of_fields hm' hd' hf' ht') nC
              (NewClosed_of_fields hm')
          · exact InvS_of_fields hm' hd' hf' ht' hInvC
        · rw [if_neg hcc] at h
          rcases Except.ok.inj h with rfl
          exact ⟨mC, nC, hInvC⟩

/-- The root loop preserves the invariant with an empty open stack: each
completed tree leaves no vertex open. -/
theorem driverLoop_spec (gen : Node → List Edge) (cc : Bool) (keys : List String)
    (fuel : Nat) :
    ∀ (us : List String) (st : DfsState)
      (trees : List (String × List (String × Option String)))
      (comps : List (String × List String)) (r : DfsRun),
      InvS st [] →
      dfsDriverLoop gen cc keys fuel us st trees comps = Except.ok r →
      InvS r.final [] := by
  intro us
  induction us with
  | nil =>
    intro st trees comps r hInv h
    simp only [dfsDriverLoop] at h
    rcases Except.ok.inj h with rfl
    exact hInv
  | cons u us ih =>
    intro st trees comps r hInv h
    simp only [dfsDriverLoop] at h
    split at h
    · exact Except.noConfusion h
    · exact ih _ _ _ _ hInv h
    · rename_i hmark
      split at h
      · exact Except.noConfusion h
      · rename_i st2 hvis
        have hInvIn : InvS ({ st with pred := keys.map (fun k => (k, none)),
                                      identifiers := [] }) [] :=
          InvS_update st [] _ _ hInv
        rcases dfsVisit_spec gen cc fuel u _ st2 [] hInvIn hmark hvis with ⟨-, -, hInv2⟩
        exact ih _ _ _ _ hInv2 h

/-- The initial engine state of a run, as depth_first_search builds it. -/
def dfsInitState (vertices : List (String × Node)) (keys : List String) : DfsState :=
  { vertices := vertices,
    first_visit := keys.map (fun k => (k, USIZE_MAX)),
    last_visit := keys.map (fun k => (k, USIZE_MAX)),
    pred := [], marked := keys.map (fun k => (k, false)),
    identifiers := [], cycles := [], time := 0 }

/-- The initial engine state satisfies the invariant: nothing is visited
yet. -/
theorem InvS_init (keys : List String) (vertices : List (String × Node)) :
    InvS (dfsInitState vertices keys) [] := by
  have hnv : ∀ k, ¬ visitedV (dfsInitState vertices keys) k := by
    intro k hk
    unfold visitedV dfsInitState at hk
    rw [show mget (keys.map (fun k => (k, false))) k =
        if k ∈ keys then some false else none from mget_const_map keys false k] at hk
    by_cases hmem : k ∈ keys
    · rw [if_pos hmem] at hk
      exact Bool.noConfusion (Option.some_inj.mp hk)
    · rw [if_neg hmem] at hk
      exact Option.noConfusion hk
  refine ⟨?_, ?_, ?_, ?_⟩
  · intro k hk
    exact absurd hk (List.not_mem_nil k)
  · intro k hk
    exact absurd hk (hnv k)
  · intro k hk _
    exact absurd hk (hnv k)
  · intro j k hj _ _ _ _
    exact absurd hj (hnv j)

end DfsProofs

/-- C2: whenever the engine returns a result, every visited vertex
carries a discovery time strictly below its finish time, and the
discovery/finish intervals of any two visited vertices (in particular of
any two vertices of the same DFS tree) are disjoint or nested, never
partially overlapping. -/
theorem claim_C2 (g : Graph) (gen : Node → List Edge) (check_cycle : Bool)
    (start_node : Option Node) (r : DfsRun)
    (hok : depth_first_search g gen check_cycle start_node = Except.ok r) :
    (∀ k, mget r.final.marked k = some true →
      ∃ td tf, mget r.final.first_visit k = some td ∧
        mget r.final.last_visit k = some tf ∧ td < tf) ∧
    (∀ j k dj fj dk fk, mget r.final.marked j = some true →
      mget r.final.marked k = some true → j ≠ k →
      mget r.final.first_visit j = some dj → mget r.final.last_visit j = some fj →
      mget r.final.first_visit k = some dk → mget r.final.last_visit k = some fk →
      fj < dk ∨ fk < dj ∨ (dj < dk ∧ fk < fj) ∨ (dk < dj ∧ fj < fk)) := by
  have hInv : InvS r.final [] := by
    simp only [depth_first_search] at hok
    exact driverLoop_spec gen check_cycle _ _ _ _ _ _ r (InvS_init _ _) hok
  constructor
  · intro k hk
    rcases hInv.closedBound k hk (List.not_mem_nil k) with ⟨td, tf, h1, h2, h3, -⟩
    exact ⟨td, tf, h1, h2, h3⟩
  · intro j k dj fj dk fk hj hk hjk hdj hfj hdk hfk
    exact hInv.pairs j k hj (List.not_mem_nil j) hk (List.not_mem_nil k) hjk
      dj fj dk fk hdj hfj hdk hfk

/-- Extract the result of a successful run, with a default for the error
case. -/
def getOkD (x : Except String DfsRun) (dflt : DfsRun) : DfsRun :=
  match x with
  | Except.ok r => r
  | Except.error _ => dflt

/-- Inert run record used as the extraction default. -/
def defaultRun : DfsRun :=
  { final := { vertices := [], first_visit := [], last_visit := [], pred := [],
               marked := [], identifiers := [], cycles := [], time := 0 },
    trees := [], components := [] }

/-- The completed run of the engine on the star-graph scenario. -/
def starRun : DfsRun :=
  getOkD (depth_first_search starGraph (edges_of_list starGraph) false none) defaultRun

/-- C2 witness: the parenthesization conclusion instantiated on the
completed star-graph run. -/
theorem claim_C2_witness :
    (∀ k, mget starRun.final.marked k = some true →
      ∃ td tf, mget starRun.final.first_visit k = some td ∧
        mget starRun.final.last_visit k = some tf ∧ td < tf) ∧
    (∀ j k dj fj dk fk, mget starRun.final.marked j = some true →
      mget starRun.final.marked k = some true → j ≠ k →
      mget starRun.final.first_visit j = some dj → mget starRun.final.last_visit j = some fj →
      mget starRun.final.first_visit k = some dk → mget starRun.final.last_visit k = some fk →
      fj < dk ∨ fk < dj ∨ (dj < dk ∧ fk < fj) ∨ (dk < dj ∧ fj < fk)) :=
  claim_C2 starGraph (edges_of_list starGraph) false none starRun (by rfl)

end PgmRust
